import Mathlib

/-!
Shallow embedding of the temporal-interval reconciliation core of
`src/lookback/models.py` (historic-judicial-districts).

Dates are modelled as `Int` day numbers (pandas `Timestamp` arithmetic is
integer days; `pd.Timedelta(days=1)` is `1`).  A pandas `NaT` is modelled as
`none : Option Int`; any `<=` comparison against `NaT` is `False` in pandas,
which `dleOpt` reproduces.  String columns stay `String`.
-/

namespace Lookback

/-- Pandas comparison `d <= e` where `e` may be `NaT` (`none`):
a comparison against `NaT` evaluates to `False`. -/
def dleOpt (d : Int) (e : Option Int) : Bool :=
  match e with
  | some x => decide (d ≤ x)
  | none => false

/-- Python `max(a, b)` over possibly-`NaT` timestamps: `result = a`, and
`b` replaces it only when `b > a` is `True`; any comparison involving `NaT`
is `False`.  Hence `max(NaT, b) = NaT` and `max(a, NaT) = a`. -/
def pymax (a b : Option Int) : Option Int :=
  match a, b with
  | some x, some y => if x < y then some y else some x
  | _, _ => a

/-- Python substring test `pat in s` on character lists. -/
def listContainsSub : List Char → List Char → Bool
  | s, pat =>
    pat.isPrefixOf s ||
      match s with
      | [] => false
      | _ :: rest => listContainsSub rest pat

/-- Python substring test `pat in s` (also pandas `str.contains` for the
metacharacter-free patterns produced by `create_county_key`). -/
def strContainsSub (s pat : String) : Bool :=
  listContainsSub s.toList pat.toList

/-- Insert an `Int` into a strictly-sorted list, keeping it strictly sorted
(duplicates collapse). -/
def insertUnique (x : Int) : List Int → List Int
  | [] => [x]
  | y :: ys =>
    if x < y then x :: y :: ys
    else if x = y then y :: ys
    else y :: insertUnique x ys

/-- Sorted, duplicate-free list of the elements of `l`: the model of
`pandas.Index.union` (and of `sorted(list(col.unique()))`). -/
def sortedDedup (l : List Int) : List Int :=
  l.foldr insertUnique []

/-! ## Data model: catalog rows and change records -/

/-- One row of a county's `shape_df` (geometry catalog): `shape_key`,
`START_DATE` (the index) and `END_DATE` (possibly `NaT`). -/
structure SRow where
  shape_key : String
  START_DATE : Int
  END_DATE : Option Int
deriving DecidableEq, Repr

/-- One row of a county's `district_df` (assignment catalog): `NewDistrict`,
`district_key`, `StartDate` (the index) and `EndDate` (possibly `NaT`). -/
structure DRow where
  NewDistrict : String
  district_key : String
  StartDate : Int
  EndDate : Option Int
deriving DecidableEq, Repr

/-- One row of `change_dates_df` as built by `County.calc_change_dates`. -/
structure ChangeRec where
  change_date : Int
  county_name : String
  county_version : String
  district_number : String
  district_version : String
deriving DecidableEq, Repr

/-! ## County.calc_change_dates -/

/-- The shape scan of `calc_change_dates` (lines 517-521): first row of
`shape_df` with `START_DATE <= d <= END_DATE`, else the `'n/a'` sentinel. -/
def resolveShape (rows : List SRow) (d : Int) : String :=
  match rows.find? (fun r => decide (r.START_DATE ≤ d) && dleOpt d r.END_DATE) with
  | some r => r.shape_key
  | none => "n/a"

/-- The district scan of `calc_change_dates` (lines 527-552), one loop
iteration per row.  `lastR` is `district_df_rows[-1]` (namedtuple value
equality), `fd` the running `first_district_date`, `cur` the
`(district_number, district_version)` pair accumulated so far.
  * exact bounded match (`StartDate <= d <= EndDate`): take row, `break`;
  * last row, `EndDate` null, `d` past the earliest start: take row, `break`;
  * any row with `StartDate <= d` and `EndDate` null: take row tentatively,
    continue scanning (no `break` in the source). -/
def resolveAux (d : Int) (lastR : DRow) (fd : Int) (cur : String × String) :
    List DRow → String × String
  | [] => cur
  | r :: rest =>
    let fd' := if r.StartDate < fd then r.StartDate else fd
    if r.StartDate ≤ d ∧ dleOpt d r.EndDate = true then
      (r.NewDistrict, r.district_key)
    else if r = lastR ∧ r.EndDate = none ∧ fd' < d then
      (r.NewDistrict, r.district_key)
    else if r.StartDate ≤ d ∧ r.EndDate = none then
      resolveAux d lastR fd' (r.NewDistrict, r.district_key) rest
    else
      resolveAux d lastR fd' cur rest

/-- District resolution for one change date.  An empty `district_df` makes
line 525 (`district_df_rows[0].StartDate`) raise `IndexError`, modelled as
`none`. -/
def resolveDistrict (rows : List DRow) (d : Int) : Option (String × String) :=
  match rows.head?, rows.getLast? with
  | some r0, some lastR => some (resolveAux d lastR r0.StartDate ("n/a", "n/a") rows)
  | _, _ => none

/-- One `ChangeDate` object of `calc_change_dates` after the loops ran for
date `d`; `none` when the district scan raised. -/
def calcOne (name : String) (shapes : List SRow) (districts : List DRow) (d : Int) :
    Option ChangeRec :=
  match resolveDistrict districts d with
  | some (num, dkey) => some ⟨d, name, resolveShape shapes d, num, dkey⟩
  | none => none

/-- `County.calc_change_dates`: the change dates are the sorted, distinct
union of the two catalogs' index (start) dates; each yields one record. -/
def calcChangeDates (name : String) (shapes : List SRow) (districts : List DRow) :
    Option (List ChangeRec) :=
  (sortedDedup (shapes.map SRow.START_DATE ++ districts.map DRow.StartDate)).mapM
    (calcOne name shapes districts)

/-! ## Fixtures (from `tests/test_models.py`), dates as Feb/Mar-2020 day
numbers: `2020-02-01 = 1`, …, `2020-02-29 = 29`, `2020-03-01 = 30`;
`2021-01-01 = 400` (only its relative order matters). -/

def richShapes : List SRow :=
  [⟨"uts_richland_S1", 1, some 9⟩, ⟨"uts_rich_S1", 10, some 14⟩,
   ⟨"uts_rich_S2", 15, some 24⟩]

def richDistricts : List DRow :=
  [⟨"1", "richland_D1", 5, none⟩, ⟨"1", "rich_D1", 10, some 19⟩,
   ⟨"2", "rich_D2", 20, none⟩]

def coShapes : List SRow :=
  [⟨"uts_co_S1", 5, some 19⟩, ⟨"uts_co_S2", 20, some 24⟩,
   ⟨"uts_co_S3", 25, some 28⟩, ⟨"uts_co_S4", 30, some 400⟩]

def coDistricts : List DRow :=
  [⟨"1", "co_D1", 10, some 14⟩, ⟨"2", "co_D2", 15, some 24⟩,
   ⟨"3", "co_D3", 25, some 28⟩, ⟨"4", "co_D4", 30, none⟩]

/-! ## County.join_shapes_and_districts -/

/-- A pandas left merge with `validate='m:1'`: the right key column must be
duplicate-free (else `MergeError`, modelled as `none`); each left row is then
paired with its unique matching right row, or with `none` (null attribute
fields) when no right row matches. -/
def leftJoinM1 {α β : Type} [DecidableEq β] (ls : List α) (rs : List β)
    (lk : α → String) (rk : β → String) : Option (List (α × Option β)) :=
  if (rs.map rk).Nodup then
    some (ls.map (fun l => (l, rs.find? (fun r => rk r = lk l))))
  else
    none

/-- `County.join_shapes_and_districts` (lines 565-587): left-join change
records to `shape_df` on `county_version = shape_key`, then the result to
`district_df` on `district_version = district_key`, both `validate='m:1'`. -/
def joinShapesAndDistricts (recs : List ChangeRec) (shapes : List SRow)
    (districts : List DRow) : Option (List (ChangeRec × Option SRow × Option DRow)) :=
  match leftJoinM1 recs shapes (fun c => c.county_version) SRow.shape_key with
  | none => none
  | some firstJoin =>
    match leftJoinM1 firstJoin districts (fun p => p.1.district_version)
        DRow.district_key with
    | none => none
    | some secondJoin => some (secondJoin.map (fun p => (p.1.1, p.1.2, p.2)))

/-! ## County.add_extra_fields and _fix_change_end_dates -/

/-- One row of `joined_df` as consumed by `add_extra_fields`: the change
date, the shape key (`county_version`), the shape end (`END_DATE`) and the
district end (`EndDate`), the latter two possibly `NaT`. -/
structure JRow where
  change_date : Int
  county_version : String
  END_DATE : Option Int
  EndDate : Option Int
deriving DecidableEq, Repr

/-- `_fix_change_end_dates` (lines 65-87): an extinct county (`'utt_'` in the
shape key) whose change end date is `NaT` gets `max(shape_end, district_end)`
(Python `max` over possibly-`NaT` values); all other rows keep their date. -/
def fixChangeEndDates (change_end_date : Option Int) (shape_key : String)
    (shape_end district_end : Option Int) : Option Int :=
  if change_end_date = none ∧ strContainsSub shape_key "utt_" = true then
    pymax shape_end district_end
  else
    change_end_date

/-- The column `change_date.shift(-1) - pd.Timedelta(days=1)`: entry `i`
is `change_date[i+1] - 1`, the last entry is `NaT`. -/
def shiftedEndDates : List Int → List (Option Int)
  | [] => []
  | _ :: rest => rest.map (fun d => some (d - 1)) ++ [none]

/-- The `change_end_date` column computed by `County.add_extra_fields`
(lines 599-609): the shifted column, then `_fix_change_end_dates` applied
elementwise with each row's shape key and both source end dates. -/
def computeChangeEndDates (rows : List JRow) : List (Option Int) :=
  ((shiftedEndDates (rows.map JRow.change_date)).zip rows).map
    (fun p => fixChangeEndDates p.1 p.2.county_version p.2.END_DATE p.2.EndDate)

/-! ## District._get_unique_district_versions and build_versions_dataframe -/

/-- `District._get_unique_district_versions` (lines 740-767): walk the
statewide change dates; append a date on `start_date <= date <= end_date`
(first check, `continue`), else on `start_date <= date` with a null end date
(second check). -/
def getUniqueDistrictVersions (unique_dates : List Int) (start_date : Int)
    (end_date : Option Int) : List Int :=
  match unique_dates with
  | [] => []
  | d :: rest =>
    if start_date ≤ d ∧ dleOpt d end_date = true then
      d :: getUniqueDistrictVersions rest start_date end_date
    else if start_date ≤ d ∧ end_date = none then
      d :: getUniqueDistrictVersions rest start_date end_date
    else
      getUniqueDistrictVersions rest start_date end_date

/-- `District.build_versions_dataframe` (lines 683-696): one candidate tuple
`(row_key, label_date, date)` per date in each row key's version list. -/
def buildVersions (label : String) (pairs : List (String × List Int)) :
    List (String × String × Int) :=
  pairs.flatMap (fun p => p.2.map (fun d => (p.1, label ++ "_" ++ toString d, d)))

/-- `District.find_records_versions` (lines 661-681): each record's unique
row key paired with the change dates it is active on. -/
def findRecordsVersions (unique_dates : List Int)
    (records : List (String × Int × Option Int)) : List (String × List Int) :=
  records.map (fun r => (r.1, getUniqueDistrictVersions unique_dates r.2.1 r.2.2))

/-! ## District.remove_duplicate_version_rows -/

/-- One row of `versions_full_info_df` as read by the reducer:
`CHANGE_DATE_IN_DST` and `UNIQUE_ROW_KEY`. -/
structure VRow where
  date : Int
  urk : String
deriving DecidableEq, Repr

/-- `UNIQUE_ROW_KEY` column of the rows carrying a given date, in table
order: `dates_and_row_keys[date]`. -/
def urksOf (rows : List VRow) (d : Int) : List String :=
  (rows.filter (fun r => r.date = d)).map VRow.urk

/-- Lexicographic `<=` on character lists by code point, as Python string
comparison orders the keys handed to `sorted`. -/
def charListLe : List Char → List Char → Bool
  | [], _ => true
  | _ :: _, [] => false
  | a :: as, b :: bs =>
    if a.toNat < b.toNat then true
    else if b.toNat < a.toNat then false
    else charListLe as bs

/-- Python `<=` on strings. -/
def strLe (a b : String) : Bool := charListLe a.toList b.toList

/-- `strLe` as a relation, for sorting. -/
def strLeP (a b : String) : Prop := strLe a b = true

instance : DecidableRel strLeP := fun a b => decEq (strLe a b) true

/-- Python `sorted` on a list of strings. -/
def sortStr (l : List String) : List String := List.insertionSort strLeP l

/-- The `pairwise` comparison loop (lines 721-723): for each adjacent pair
of dates, append the second date when the two sorted row-key lists differ. -/
def pairKeepAux (f : Int → List String) : List Int → List Int
  | a :: b :: rest =>
    (if sortStr (f a) = sortStr (f b) then [] else [b]) ++ pairKeepAux f (b :: rest)
  | _ => []

/-- The dates retained by `District.remove_duplicate_version_rows`
(lines 698-726): sort the distinct `CHANGE_DATE_IN_DST` values; keep the
first if its row-key list is non-empty; then walk adjacent pairs.  An empty
table makes `all_unique_change_dates[0]` raise `IndexError` (`none`). -/
def keptDates (rows : List VRow) : Option (List Int) :=
  match sortedDedup (rows.map VRow.date) with
  | [] => none
  | d0 :: rest =>
    some ((if urksOf rows d0 = [] then [] else [d0]) ++
      pairKeepAux (urksOf rows) (d0 :: rest))

/-- `District.remove_duplicate_version_rows`: the rows whose date is in the
retained set (`isin(dates)`). -/
def removeDuplicateVersionRows (rows : List VRow) : Option (List VRow) :=
  (keptDates rows).map (fun ds => rows.filter (fun r => r.date ∈ ds))

/-! ## The reducer's deduplication as the spec states it (for claim C3) -/

/-- Set equality of two key lists (membership in both directions). -/
def setEqB (a b : List String) : Bool :=
  a.all (fun x => decide (x ∈ b)) && b.all (fun x => decide (x ∈ a))

/-- Modelled from the spec's dedup walk: `cur` is the most recently kept
date's key set; a date is kept iff its set is non-empty and differs (as a
set) from `cur`; empty sets are discarded. -/
def specWalk (f : Int → List String) (cur : List String) : List Int → List Int
  | [] => []
  | d :: rest =>
    if f d = [] then specWalk f cur rest
    else if setEqB (f d) cur = true then specWalk f cur rest
    else d :: specWalk f (f d) rest

/-- Modelled from the spec: keep the first date with a non-empty key set,
then keep each later date whose set differs from the most recently kept
date's set; discard dates with empty sets. -/
def specKeep (f : Int → List String) (ds : List Int) : List Int :=
  match ds.dropWhile (fun d => (f d).isEmpty) with
  | [] => []
  | d :: rest => d :: specWalk f (f d) rest

/-! ## County.setup row selection -/

/-- A catalog row as seen by `County.setup`: its `county_key` and the start
date the frame is indexed and sorted by. -/
structure CatRow where
  county_key : String
  start : Int
deriving DecidableEq, Repr

/-- `County.setup` (lines 482-500): select the rows whose `county_key`
contains the county's name (`str.contains`, substring containment), then
sort by the start-date index. -/
def selectCountyRows (df : List CatRow) (name : String) : List CatRow :=
  List.insertionSort (fun a b => a.start ≤ b.start)
    (df.filter (fun r => strContainsSub r.county_key name))

/-! ## Further concrete fixtures used by the witnesses -/

/-- Scenario C of the spec: dates `1 < 2 < 3` with active-key sets
`[A,B]`, `[A,B]`, `[A,C]`. -/
def rows3 : List VRow :=
  [⟨1, "A"⟩, ⟨1, "B"⟩, ⟨2, "A"⟩, ⟨2, "B"⟩, ⟨3, "A"⟩, ⟨3, "C"⟩]

/-- Two joined rows, the second an extinct (`utt_`) county with a null
district end date. -/
def jRows2 : List JRow :=
  [⟨10, "uts_co_S1", some 19, some 19⟩, ⟨20, "utt_sh_S1", some 30, none⟩]

/-- Change records for the join fixture: the first matches catalog rows on
both keys, the second matches neither. -/
def joinRecs : List ChangeRec :=
  [⟨10, "co", "uts_co_S1", "1", "co_D1"⟩, ⟨12, "co", "no_shape", "9", "no_dst"⟩]

/-- A geometry catalog with a duplicated version key. -/
def dupShapes : List SRow :=
  [⟨"uts_co_S1", 5, some 19⟩, ⟨"uts_co_S1", 20, some 24⟩]

/-- A small combined catalog frame: the `rich` entity name is a substring of
the `richland` county key. -/
def catRows : List CatRow :=
  [⟨"rich", 3⟩, ⟨"richland", 1⟩, ⟨"grand", 2⟩]

/-! ## Lemmas about `sortedDedup` -/

theorem insertUnique_cons_lt {x y : Int} {ys : List Int} (h : x < y) :
    insertUnique x (y :: ys) = x :: y :: ys := by
  simp [insertUnique, h]

theorem insertUnique_cons_eq {x y : Int} {ys : List Int} (h1 : ¬x < y)
    (h2 : x = y) : insertUnique x (y :: ys) = y :: ys := by
  simp [insertUnique, h1, h2]

theorem insertUnique_cons_gt {x y : Int} {ys : List Int} (h1 : ¬x < y)
    (h2 : x ≠ y) : insertUnique x (y :: ys) = y :: insertUnique x ys := by
  simp [insertUnique, h1, h2]

theorem mem_insertUnique (x : Int) (l : List Int) (a : Int) :
    a ∈ insertUnique x l ↔ a = x ∨ a ∈ l := by
  induction l with
  | nil => simp [insertUnique]
  | cons y ys ih =>
    by_cases h1 : x < y
    · rw [insertUnique_cons_lt h1]
      simp
    · by_cases h2 : x = y
      · rw [insertUnique_cons_eq h1 h2]
        subst h2
        simp only [List.mem_cons]
        tauto
      · rw [insertUnique_cons_gt h1 h2]
        simp only [List.mem_cons, ih]
        tauto

theorem pairwise_insertUnique (x : Int) (l : List Int)
    (h : l.Pairwise (· < ·)) : (insertUnique x l).Pairwise (· < ·) := by
  induction l with
  | nil => simp [insertUnique]
  | cons y ys ih =>
    rw [List.pairwise_cons] at h
    obtain ⟨hy, hys⟩ := h
    by_cases h1 : x < y
    · rw [insertUnique_cons_lt h1, List.pairwise_cons]
      refine ⟨?_, ?_⟩
      · intro b hb
        rcases List.mem_cons.mp hb with rfl | hb
        · exact h1
        · exact h1.trans (hy b hb)
      · rw [List.pairwise_cons]
        exact ⟨hy, hys⟩
    · by_cases h2 : x = y
      · rw [insertUnique_cons_eq h1 h2, List.pairwise_cons]
        exact ⟨hy, hys⟩
      · rw [insertUnique_cons_gt h1 h2, List.pairwise_cons]
        refine ⟨?_, ih hys⟩
        intro b hb
        rcases (mem_insertUnique x ys b).mp hb with rfl | hb
        · omega
        · exact hy b hb

theorem sortedDedup_pairwise (l : List Int) :
    (sortedDedup l).Pairwise (· < ·) := by
  induction l with
  | nil => exact List.Pairwise.nil
  | cons x xs ih => exact pairwise_insertUnique x _ ih

theorem mem_sortedDedup (l : List Int) (a : Int) :
    a ∈ sortedDedup l ↔ a ∈ l := by
  induction l with
  | nil => simp [sortedDedup]
  | cons x xs ih =>
    show a ∈ insertUnique x (sortedDedup xs) ↔ _
    rw [mem_insertUnique, ih]
    simp

theorem sortedDedup_nodup (l : List Int) : (sortedDedup l).Nodup :=
  (sortedDedup_pairwise l).imp (fun h => ne_of_lt h)

theorem eq_of_pairwise_lt (k1 k2 : List Int) (h1 : k1.Pairwise (· < ·))
    (h2 : k2.Pairwise (· < ·)) (hm : ∀ x, x ∈ k1 ↔ x ∈ k2) : k1 = k2 := by
  have n1 : k1.Nodup := h1.imp (fun h => ne_of_lt h)
  have n2 : k2.Nodup := h2.imp (fun h => ne_of_lt h)
  have hp : k1.Perm k2 := (List.perm_ext_iff_of_nodup n1 n2).mpr hm
  exact List.eq_of_perm_of_sorted hp (h1.imp (fun h => le_of_lt h))
    (h2.imp (fun h => le_of_lt h))

theorem sortedDedup_canonical (l k : List Int) (hk : k.Pairwise (· < ·))
    (hm : ∀ x, x ∈ k ↔ x ∈ l) : sortedDedup l = k :=
  eq_of_pairwise_lt _ _ (sortedDedup_pairwise l) hk
    (fun x => (mem_sortedDedup l x).trans (hm x).symm)

theorem sortedDedup_length (l : List Int) :
    (sortedDedup l).length = l.toFinset.card := by
  have hfs : (sortedDedup l).toFinset = l.toFinset := by
    ext a
    simp [List.mem_toFinset, mem_sortedDedup]
  calc (sortedDedup l).length
      = (sortedDedup l).toFinset.card :=
        (List.toFinset_card_of_nodup (sortedDedup_nodup l)).symm
    _ = l.toFinset.card := by rw [hfs]

/-! ## Lemmas about the string order and `sortStr` -/

theorem charListLe_cons (x y : Char) (xs ys : List Char) :
    charListLe (x :: xs) (y :: ys) =
      if x.toNat < y.toNat then true
      else if y.toNat < x.toNat then false
      else charListLe xs ys := by
  rfl

theorem charListLe_total : ∀ a b : List Char,
    charListLe a b = true ∨ charListLe b a = true := by
  intro a
  induction a with
  | nil => intro b; left; rfl
  | cons x xs ih =>
    intro b
    cases b with
    | nil => right; rfl
    | cons y ys =>
      rw [charListLe_cons, charListLe_cons]
      rcases ih ys with h | h <;>
        · split_ifs with h1 h2 <;> simp [h] <;> omega

theorem charListLe_trans : ∀ a b c : List Char, charListLe a b = true →
    charListLe b c = true → charListLe a c = true := by
  intro a
  induction a with
  | nil => intro b c _ _; rfl
  | cons x xs ih =>
    intro b c hab hbc
    cases b with
    | nil => exact absurd hab (by simp [charListLe])
    | cons y ys =>
      cases c with
      | nil => exact absurd hbc (by simp [charListLe])
      | cons z zs =>
        rw [charListLe_cons] at hab hbc ⊢
        split_ifs at hab hbc ⊢ <;>
          first
          | rfl
          | omega
          | exact ih ys zs hab hbc
          | simp_all

theorem char_toNat_inj {a b : Char} (h : a.toNat = b.toNat) : a = b :=
  Char.ext (UInt32.ext h)

theorem charListLe_antisymm : ∀ a b : List Char, charListLe a b = true →
    charListLe b a = true → a = b := by
  intro a
  induction a with
  | nil =>
    intro b _ hba
    cases b with
    | nil => rfl
    | cons y ys => exact absurd hba (by simp [charListLe])
  | cons x xs ih =>
    intro b hab hba
    cases b with
    | nil => exact absurd hab (by simp [charListLe])
    | cons y ys =>
      rw [charListLe_cons] at hab hba
      by_cases h1 : x.toNat < y.toNat
      · rw [if_neg (by omega), if_pos h1] at hba
        exact absurd hba (by decide)
      · by_cases h2 : y.toNat < x.toNat
        · rw [if_neg h1, if_pos h2] at hab
          exact absurd hab (by decide)
        · rw [if_neg h1, if_neg h2] at hab
          rw [if_neg h2, if_neg h1] at hba
          have hx : x = y := char_toNat_inj (by omega)
          rw [hx, ih ys hab hba]

instance : IsTotal String strLeP :=
  ⟨fun a b => charListLe_total a.toList b.toList⟩

instance : IsTrans String strLeP :=
  ⟨fun a b c => charListLe_trans a.toList b.toList c.toList⟩

theorem string_toList_inj {a b : String} (h : a.toList = b.toList) : a = b := by
  obtain ⟨da⟩ := a
  obtain ⟨db⟩ := b
  exact congrArg String.mk h

instance : IsAntisymm String strLeP :=
  ⟨fun a b hab hba => string_toList_inj (charListLe_antisymm _ _ hab hba)⟩

theorem sortStr_perm (l : List String) : (sortStr l).Perm l :=
  List.perm_insertionSort strLeP l

theorem sortStr_sorted (l : List String) : List.Sorted strLeP (sortStr l) :=
  List.sorted_insertionSort strLeP l

theorem sortStr_eq_iff (a b : List String) (ha : a.Nodup) (hb : b.Nodup) :
    sortStr a = sortStr b ↔ ∀ x, x ∈ a ↔ x ∈ b := by
  constructor
  · intro h x
    have h1 := (sortStr_perm a).mem_iff (a := x)
    have h2 := (sortStr_perm b).mem_iff (a := x)
    rw [← h1, h, h2]
  · intro h
    have hp : a.Perm b := (List.perm_ext_iff_of_nodup ha hb).mpr h
    exact List.eq_of_perm_of_sorted
      (((sortStr_perm a).trans hp).trans (sortStr_perm b).symm)
      (sortStr_sorted a) (sortStr_sorted b)

/-! ## Lemmas about the district scan -/

theorem resolveAux_cons (d : Int) (lastR : DRow) (fd : Int)
    (cur : String × String) (r : DRow) (rest : List DRow) :
    resolveAux d lastR fd cur (r :: rest) =
      (if r.StartDate ≤ d ∧ dleOpt d r.EndDate = true then
        (r.NewDistrict, r.district_key)
      else if r = lastR ∧ r.EndDate = none ∧
          (if r.StartDate < fd then r.StartDate else fd) < d then
        (r.NewDistrict, r.district_key)
      else if r.StartDate ≤ d ∧ r.EndDate = none then
        resolveAux d lastR (if r.StartDate < fd then r.StartDate else fd)
          (r.NewDistrict, r.district_key) rest
      else
        resolveAux d lastR (if r.StartDate < fd then r.StartDate else fd)
          cur rest) := rfl

theorem resolveAux_first_exact (d : Int) (lastR : DRow) :
    ∀ (pre : List DRow) (r : DRow) (post : List DRow) (fd : Int)
    (cur : String × String),
    (∀ p ∈ pre, ¬(p.StartDate ≤ d ∧ dleOpt d p.EndDate = true)) →
    (∀ p ∈ pre, p.EndDate = none → p ≠ lastR) →
    r.StartDate ≤ d → dleOpt d r.EndDate = true →
    resolveAux d lastR fd cur (pre ++ r :: post) =
      (r.NewDistrict, r.district_key) := by
  intro pre
  induction pre with
  | nil =>
    intro r post fd cur _ _ hr1 hr2
    rw [List.nil_append, resolveAux_cons, if_pos ⟨hr1, hr2⟩]
  | cons p ps ih =>
    intro r post fd cur hex hop hr1 hr2
    have hpex : ¬(p.StartDate ≤ d ∧ dleOpt d p.EndDate = true) := hex p (by simp)
    have hpop : p.EndDate = none → p ≠ lastR := hop p (by simp)
    have hex' : ∀ q ∈ ps, ¬(q.StartDate ≤ d ∧ dleOpt d q.EndDate = true) :=
      fun q hq => hex q (by simp [hq])
    have hop' : ∀ q ∈ ps, q.EndDate = none → q ≠ lastR :=
      fun q hq => hop q (by simp [hq])
    rw [List.cons_append, resolveAux_cons, if_neg hpex,
      if_neg (fun hc => hpop hc.2.1 hc.1)]
    by_cases h3 : p.StartDate ≤ d ∧ p.EndDate = none
    · rw [if_pos h3]
      exact ih r post _ _ hex' hop' hr1 hr2
    · rw [if_neg h3]
      exact ih r post _ _ hex' hop' hr1 hr2

/-- Claim C1 (amended): during the single in-order scan of `A`, an interval
with `start ≤ D` and `end == null` only sets the active assignment
tentatively without stopping the scan; it is overridden by any later
interval that matches bounds exactly.  In particular the first exactly
matching interval wins over every earlier open-ended interval: if no row
before `r` matches exactly and no open-ended row before `r` is the last row
of the catalog, and `r` matches `D` exactly, then `r` is resolved. -/
theorem first_exact_match_wins_over_earlier_open (pre post : List DRow)
    (r lastR : DRow) (d : Int)
    (hlast : (pre ++ r :: post).getLast? = some lastR)
    (hex : ∀ p ∈ pre, ¬(p.StartDate ≤ d ∧ dleOpt d p.EndDate = true))
    (hop : ∀ p ∈ pre, p.EndDate = none → p ≠ lastR)
    (hr1 : r.StartDate ≤ d) (hr2 : dleOpt d r.EndDate = true) :
    resolveDistrict (pre ++ r :: post) d =
      some (r.NewDistrict, r.district_key) := by
  have hne : pre ++ r :: post ≠ [] := by simp
  obtain ⟨h0, t, hcons⟩ := List.exists_cons_of_ne_nil hne
  unfold resolveDistrict
  rw [hcons] at hlast
  rw [hcons]
  simp only [List.head?_cons, hlast]
  rw [← hcons]
  exact congrArg some
    (resolveAux_first_exact d lastR pre r post h0.StartDate ("n/a", "n/a")
      hex hop hr1 hr2)

/-- Claim C1 (amended) witness: the Richland fixture at day 10. -/
theorem first_exact_match_wins_over_earlier_open_witness :
    (([⟨"1", "richland_D1", 5, none⟩] : List DRow) ++
        (⟨"1", "rich_D1", 10, some 19⟩ : DRow) ::
          ([⟨"2", "rich_D2", 20, none⟩] : List DRow)).getLast? =
      some ⟨"2", "rich_D2", 20, none⟩ ∧
    resolveDistrict
      (([⟨"1", "richland_D1", 5, none⟩] : List DRow) ++
        (⟨"1", "rich_D1", 10, some 19⟩ : DRow) ::
          ([⟨"2", "rich_D2", 20, none⟩] : List DRow)) 10 =
      some ("1", "rich_D1") :=
  ⟨by decide,
   first_exact_match_wins_over_earlier_open
    [⟨"1", "richland_D1", 5, none⟩] [⟨"2", "rich_D2", 20, none⟩]
    ⟨"1", "rich_D1", 10, some 19⟩ ⟨"2", "rich_D2", 20, none⟩ 10
    (by decide) (by decide) (by decide) (by decide) (by decide)⟩

/-- Claim C1 counterexample: in the Richland assignment catalog the interval
`richland_D1` is open-ended with `start = 5 ≤ 10`, yet the resolution at
day 10 is `rich_D1` (the later exact bounded match), not `richland_D1`.
So an open interval is not resolved as a final override pass over all of
`A`: a later exact match beats it. -/
theorem rule_c_is_not_a_final_override_pass :
    (⟨"1", "richland_D1", 5, none⟩ : DRow) ∈ richDistricts ∧
    ((⟨"1", "richland_D1", 5, none⟩ : DRow).StartDate ≤ 10 ∧
      (⟨"1", "richland_D1", 5, none⟩ : DRow).EndDate = none) ∧
    resolveDistrict richDistricts 10 = some ("1", "rich_D1") ∧
    ("rich_D1" : String) ≠ "richland_D1" := by
  decide

/-- Claim C2: on the Richland rename fixture the change record at day 10
(`2020-02-10`) resolves the assignment to the exactly bounded `rich_D1`,
not to the earlier open-ended `richland_D1` (third record below); the full
output also matches the other reference fixture rows. -/
theorem richland_change_at_10_resolves_exact_match :
    calcChangeDates "rich" richShapes richDistricts = some
      [⟨1, "rich", "uts_richland_S1", "n/a", "n/a"⟩,
       ⟨5, "rich", "uts_richland_S1", "1", "richland_D1"⟩,
       ⟨10, "rich", "uts_rich_S1", "1", "rich_D1"⟩,
       ⟨15, "rich", "uts_rich_S2", "1", "rich_D1"⟩,
       ⟨20, "rich", "uts_rich_S2", "2", "rich_D2"⟩] := by
  decide

/-- Claim C9: a non-empty geometry catalog with an empty assignment catalog
does not give an empty result: `district_df_rows[0].StartDate` raises
`IndexError` (modelled `none`); likewise the reducer on an empty table
(missing group) raises at `all_unique_change_dates[0]`. -/
theorem empty_catalog_and_missing_group_raise :
    calcChangeDates "co" [⟨"uts_co_S1", 5, some 19⟩] [] = none ∧
    keptDates [] = none := by
  decide

/-- Claim C10: `County.setup` selects catalog rows by substring containment
of the entity name in `county_key`, so whenever every row selected for one
entity has a key containing another entity's name, the latter's catalog
includes all of the former's rows. -/
theorem setup_selects_by_substring_containment (df : List CatRow)
    (n1 n2 : String)
    (h : ∀ r ∈ selectCountyRows df n2, strContainsSub r.county_key n1 = true) :
    (∀ r, r ∈ selectCountyRows df n1 ↔
      r ∈ df ∧ strContainsSub r.county_key n1 = true) ∧
    (∀ r ∈ selectCountyRows df n2, r ∈ selectCountyRows df n1) := by
  have hmem : ∀ (n : String) (r : CatRow), r ∈ selectCountyRows df n ↔
      r ∈ df ∧ strContainsSub r.county_key n = true := by
    intro n r
    unfold selectCountyRows
    rw [(List.perm_insertionSort _ _).mem_iff]
    simp [List.mem_filter]
  refine ⟨hmem n1, ?_⟩
  intro r hr
  exact (hmem n1 r).mpr ⟨((hmem n2 r).mp hr).1, h r hr⟩

/-- Claim C10 witness: `rich` is a substring of the `richland` key, so the
`richland` row is selected for both entities. -/
theorem setup_selects_by_substring_containment_witness :
    (⟨"richland", 1⟩ : CatRow) ∈ selectCountyRows catRows "richland" ∧
    (⟨"richland", 1⟩ : CatRow) ∈ selectCountyRows catRows "rich" :=
  ⟨by decide,
   (setup_selects_by_substring_containment catRows "rich" "richland"
      (by decide)).2 ⟨"richland", 1⟩ (by decide)⟩

/-! ## Claim C5: the activity predicate of the district version scan -/

theorem gudv_eq_filter (dates : List Int) (s : Int) (e : Option Int) :
    getUniqueDistrictVersions dates s e =
      dates.filter
        (fun d => decide ((s ≤ d ∧ dleOpt d e = true) ∨ (s ≤ d ∧ e = none))) := by
  induction dates with
  | nil => rfl
  | cons d rest ih =>
    show (if s ≤ d ∧ dleOpt d e = true then _ else _) = _
    by_cases h1 : s ≤ d ∧ dleOpt d e = true
    · rw [if_pos h1, List.filter_cons_of_pos (by simp [h1]), ih]
    · rw [if_neg h1]
      by_cases h2 : s ≤ d ∧ e = none
      · rw [if_pos h2, List.filter_cons_of_pos (by simp [h2]), ih]
      · rw [if_neg h2, List.filter_cons_of_neg (by simp [h1, h2]), ih]

/-- Claim C5: a composition row is judged active at a global date `d` iff
`start ≤ d ≤ end` or `start ≤ d` with a null end; its version list is
exactly the global dates satisfying that predicate, and a row key whose
version list is empty contributes no candidate tuples. -/
theorem row_active_iff_covering_or_open (dates : List Int) (s : Int)
    (e : Option Int) :
    getUniqueDistrictVersions dates s e =
      dates.filter
        (fun d => decide ((s ≤ d ∧ dleOpt d e = true) ∨ (s ≤ d ∧ e = none))) ∧
    (∀ d, d ∈ getUniqueDistrictVersions dates s e ↔
      d ∈ dates ∧ ((s ≤ d ∧ dleOpt d e = true) ∨ (s ≤ d ∧ e = none))) ∧
    (∀ (label k : String) (rest : List (String × List Int)),
      buildVersions label ((k, []) :: rest) = buildVersions label rest) := by
  refine ⟨gudv_eq_filter dates s e, ?_, ?_⟩
  · intro d
    rw [gudv_eq_filter, List.mem_filter]
    simp
  · intro label k rest
    simp [buildVersions]

/-! ## Claim C4: one change record per distinct start date -/

theorem mapM_eq_some_map {α β : Type} (f : α → Option β) (g : α → β) :
    ∀ l : List α, (∀ a ∈ l, f a = some (g a)) → l.mapM f = some (l.map g) := by
  intro l
  induction l with
  | nil => intro _; rfl
  | cons x xs ih =>
    intro h
    rw [List.mapM_cons, h x (by simp), ih (fun a ha => h a (by simp [ha]))]
    rfl

theorem resolveDistrict_of_ne_nil (districts : List DRow) (d : Int)
    (h : districts ≠ []) :
    ∃ pair, resolveDistrict districts d = some pair := by
  obtain ⟨r0, t, rfl⟩ := List.exists_cons_of_ne_nil h
  obtain ⟨lastR, hl⟩ : ∃ lastR, (r0 :: t).getLast? = some lastR :=
    ⟨(r0 :: t).getLast (by simp), List.getLast?_eq_getLast _ _⟩
  refine ⟨resolveAux d lastR r0.StartDate ("n/a", "n/a") (r0 :: t), ?_⟩
  unfold resolveDistrict
  rw [List.head?_cons, hl]

/-- The record `calc_change_dates` builds for one date, when the assignment
catalog is non-empty. -/
def mkChangeRec (name : String) (shapes : List SRow) (districts : List DRow)
    (d : Int) : ChangeRec :=
  ⟨d, name, resolveShape shapes d,
    ((resolveDistrict districts d).getD ("n/a", "n/a")).1,
    ((resolveDistrict districts d).getD ("n/a", "n/a")).2⟩

theorem calcOne_eq_some (name : String) (shapes : List SRow)
    (districts : List DRow) (d : Int) (h : districts ≠ []) :
    calcOne name shapes districts d =
      some (mkChangeRec name shapes districts d) := by
  obtain ⟨pair, hp⟩ := resolveDistrict_of_ne_nil districts d h
  obtain ⟨num, dkey⟩ := pair
  unfold calcOne mkChangeRec
  rw [hp]
  rfl

/-- Claim C4: for non-empty catalogs, `calc_change_dates` succeeds and emits
an ascending, duplicate-free sequence of change records, one per distinct
start date in the union of the two catalogs, so their count equals the
number of distinct start dates. -/
theorem calc_change_dates_one_record_per_distinct_start (name : String)
    (shapes : List SRow) (districts : List DRow)
    (hs : shapes ≠ []) (hd : districts ≠ []) :
    ∃ recs, calcChangeDates name shapes districts = some recs ∧
      recs.map ChangeRec.change_date =
        sortedDedup (shapes.map SRow.START_DATE ++ districts.map DRow.StartDate) ∧
      (recs.map ChangeRec.change_date).Pairwise (· < ·) ∧
      recs.length =
        (shapes.map SRow.START_DATE ++ districts.map DRow.StartDate).toFinset.card := by
  refine ⟨(sortedDedup (shapes.map SRow.START_DATE ++ districts.map DRow.StartDate)).map
    (mkChangeRec name shapes districts), ?_, ?_, ?_, ?_⟩
  · exact mapM_eq_some_map _ _ _ (fun a _ => calcOne_eq_some name shapes districts a hd)
  · rw [List.map_map]
    have : ChangeRec.change_date ∘ mkChangeRec name shapes districts = id := rfl
    rw [this, List.map_id]
  · rw [List.map_map]
    have : ChangeRec.change_date ∘ mkChangeRec name shapes districts = id := rfl
    rw [this, List.map_id]
    exact sortedDedup_pairwise _
  · rw [List.length_map]
    exact sortedDedup_length _

/-- Claim C4 witness: the general-case fixture has six distinct start dates
and six records. -/
theorem calc_change_dates_one_record_per_distinct_start_witness :
    coShapes ≠ [] ∧ coDistricts ≠ [] ∧
    (∃ recs, calcChangeDates "co" coShapes coDistricts = some recs ∧
      recs.map ChangeRec.change_date =
        sortedDedup (coShapes.map SRow.START_DATE ++ coDistricts.map DRow.StartDate) ∧
      (recs.map ChangeRec.change_date).Pairwise (· < ·) ∧
      recs.length =
        (coShapes.map SRow.START_DATE ++ coDistricts.map DRow.StartDate).toFinset.card) :=
  ⟨by decide, by decide,
   calc_change_dates_one_record_per_distinct_start "co" coShapes coDistricts
    (by decide) (by decide)⟩

/-! ## Claim C6: change end dates -/

theorem fixChangeEndDates_some (x : Int) (k : String) (a b : Option Int) :
    fixChangeEndDates (some x) k a b = some x := by
  simp [fixChangeEndDates]

theorem computeChangeEndDates_single (r : JRow) :
    computeChangeEndDates [r] =
      [fixChangeEndDates none r.county_version r.END_DATE r.EndDate] := rfl

theorem computeChangeEndDates_cons (r1 r2 : JRow) (rest : List JRow) :
    computeChangeEndDates (r1 :: r2 :: rest) =
      fixChangeEndDates (some (r2.change_date - 1)) r1.county_version
          r1.END_DATE r1.EndDate ::
        computeChangeEndDates (r2 :: rest) := rfl

theorem computeChangeEndDates_get? (rows : List JRow) :
    ∀ (i : Nat) (h : i + 1 < rows.length),
    (computeChangeEndDates rows).get? i =
      some (some ((rows.get ⟨i + 1, h⟩).change_date - 1)) := by
  induction rows with
  | nil => intro i h; simp at h
  | cons r1 rest ih =>
    intro i h
    cases rest with
    | nil => simp at h
    | cons r2 rest' =>
      cases i with
      | zero =>
        rw [computeChangeEndDates_cons]
        simp [fixChangeEndDates_some]
      | succ j =>
        rw [computeChangeEndDates_cons]
        have h' : j + 1 < (r2 :: rest').length := by
          simpa [Nat.succ_lt_succ_iff] using h
        have := ih j h'
        simpa using this

theorem computeChangeEndDates_getLast? (rows : List JRow) (lastRow : JRow)
    (hl : rows.getLast? = some lastRow) :
    (computeChangeEndDates rows).getLast? =
      some (fixChangeEndDates none lastRow.county_version lastRow.END_DATE
        lastRow.EndDate) := by
  induction rows with
  | nil => simp at hl
  | cons r rest ih =>
    cases rest with
    | nil =>
      have hr : lastRow = r := by simpa using hl.symm
      subst hr
      rw [computeChangeEndDates_single]
      rfl
    | cons r2 rest' =>
      rw [List.getLast?_cons_cons] at hl
      rw [computeChangeEndDates_cons]
      obtain ⟨c, cs, hc⟩ : ∃ c cs, computeChangeEndDates (r2 :: rest') = c :: cs := by
        cases rest' with
        | nil => exact ⟨_, _, computeChangeEndDates_single r2⟩
        | cons r3 rest'' => exact ⟨_, _, computeChangeEndDates_cons r2 r3 rest''⟩
      rw [hc, List.getLast?_cons_cons, ← hc]
      exact ih hl

/-- Claim C6: with records in ascending `change_date` order, every record
but the last gets `change_end_date = next change_date - 1 day`; the last
record's end date is null unless its shape key contains `'utt_'` (extinct),
in which case it is Python's `max` of the geometry and assignment end dates
(which is `max` in the usual sense when both are non-null). -/
theorem change_end_date_is_next_minus_one (rows : List JRow) (lastRow : JRow)
    (hl : rows.getLast? = some lastRow) :
    (∀ (i : Nat) (h : i + 1 < rows.length),
      (computeChangeEndDates rows).get? i =
        some (some ((rows.get ⟨i + 1, h⟩).change_date - 1))) ∧
    (computeChangeEndDates rows).getLast? =
      some (if strContainsSub lastRow.county_version "utt_" = true then
        pymax lastRow.END_DATE lastRow.EndDate
      else none) ∧
    (∀ x y : Int, pymax (some x) (some y) = some (max x y)) := by
  refine ⟨computeChangeEndDates_get? rows, ?_, ?_⟩
  · rw [computeChangeEndDates_getLast? rows lastRow hl]
    unfold fixChangeEndDates
    by_cases h : strContainsSub lastRow.county_version "utt_" = true
    · rw [if_pos h, if_pos ⟨rfl, h⟩]
    · rw [if_neg h, if_neg (fun hc => h hc.2)]
  · intro x y
    show (if x < y then (some y : Option Int) else some x) = some (max x y)
    split_ifs with h
    · rw [max_eq_right (le_of_lt h)]
    · rw [max_eq_left (by omega)]

/-- Claim C6 witness: on the two-row fixture, the first record ends the day
before the second starts, and the extinct last record gets the later of its
two source end dates. -/
theorem change_end_date_is_next_minus_one_witness :
    jRows2.getLast? = some ⟨20, "utt_sh_S1", some 30, none⟩ ∧
    (computeChangeEndDates jRows2).get? 0 = some (some 19) ∧
    (computeChangeEndDates jRows2).getLast? = some (some 30) :=
  ⟨by decide,
   by
    have h := (change_end_date_is_next_minus_one jRows2
      ⟨20, "utt_sh_S1", some 30, none⟩ (by decide)).1 0 (by decide)
    exact h.trans (by decide),
   by
    have h := (change_end_date_is_next_minus_one jRows2
      ⟨20, "utt_sh_S1", some 30, none⟩ (by decide)).2.1
    exact h.trans (by decide)⟩

/-! ## Claim C8: the joins -/

theorem not_nodup_of_two_matches {β : Type} (rs : List β) (key : β → String)
    (k : String) (h : 2 ≤ (rs.filter (fun r => key r = k)).length) :
    ¬(rs.map key).Nodup := by
  intro hnd
  have hsub : List.Sublist ((rs.filter (fun r => key r = k)).map key)
      (rs.map key) :=
    (List.filter_sublist rs).map key
  have hcount : ((rs.filter (fun r => key r = k)).map key).count k =
      ((rs.filter (fun r => key r = k)).map key).length := by
    rw [List.count_eq_length]
    intro a ha
    obtain ⟨r, hr, rfl⟩ := List.mem_map.mp ha
    have := (List.mem_filter.mp hr).2
    simp at this
    exact this.symm
  have hlen : ((rs.filter (fun r => key r = k)).map key).length =
      (rs.filter (fun r => key r = k)).length := List.length_map _ _
  have hle := hsub.count_le k
  have hone := (List.nodup_iff_count_le_one.mp hnd) k
  omega

/-- Claim C8: joining change records back to the catalogs by version key,
a missing match yields null attribute fields (`none`) and never raises,
while a version key matching more than one catalog row aborts the join as a
fatal validation error instead of producing rows. -/
theorem join_nulls_on_missing_fatal_on_duplicate (recs : List ChangeRec)
    (shapes : List SRow) (districts : List DRow) :
    ((shapes.map SRow.shape_key).Nodup → (districts.map DRow.district_key).Nodup →
      joinShapesAndDistricts recs shapes districts = some (recs.map (fun c =>
        (c, shapes.find? (fun s => s.shape_key = c.county_version),
          districts.find? (fun t => t.district_key = c.district_version))))) ∧
    ((∃ c ∈ recs,
        2 ≤ (shapes.filter (fun s => s.shape_key = c.county_version)).length) →
      joinShapesAndDistricts recs shapes districts = none) ∧
    ((shapes.map SRow.shape_key).Nodup →
      (∃ c ∈ recs,
        2 ≤ (districts.filter (fun t => t.district_key = c.district_version)).length) →
      joinShapesAndDistricts recs shapes districts = none) := by
  refine ⟨?_, ?_, ?_⟩
  · intro h1 h2
    simp [joinShapesAndDistricts, leftJoinM1, h1, h2, List.map_map]
  · rintro ⟨c, _, hc⟩
    have hdup := not_nodup_of_two_matches shapes SRow.shape_key c.county_version hc
    simp [joinShapesAndDistricts, leftJoinM1, hdup]
  · intro h1
    rintro ⟨c, _, hc⟩
    have hdup := not_nodup_of_two_matches districts DRow.district_key
      c.district_version hc
    simp [joinShapesAndDistricts, leftJoinM1, h1, hdup]

/-- Claim C8 witness: the unmatched record keeps null fields on a healthy
join; a duplicated shape key aborts the join. -/
theorem join_nulls_on_missing_fatal_on_duplicate_witness :
    joinShapesAndDistricts joinRecs coShapes coDistricts = some
      [(⟨10, "co", "uts_co_S1", "1", "co_D1"⟩,
        some ⟨"uts_co_S1", 5, some 19⟩, some ⟨"1", "co_D1", 10, some 14⟩),
       (⟨12, "co", "no_shape", "9", "no_dst"⟩, none, none)] ∧
    joinShapesAndDistricts joinRecs dupShapes coDistricts = none :=
  ⟨((join_nulls_on_missing_fatal_on_duplicate joinRecs coShapes
      coDistricts).1 (by decide) (by decide)).trans (by decide),
   (join_nulls_on_missing_fatal_on_duplicate joinRecs dupShapes
      coDistricts).2.1 ⟨⟨10, "co", "uts_co_S1", "1", "co_D1"⟩, by decide, by decide⟩⟩

/-! ## Lemmas about the reducer -/

theorem urksOf_nodup (rows : List VRow) (hnd : rows.Nodup) (d : Int) :
    (urksOf rows d).Nodup := by
  unfold urksOf
  refine List.Nodup.map_on ?_ (hnd.filter _)
  intro x hx y hy hxy
  have hdx := (List.mem_filter.mp hx).2
  have hdy := (List.mem_filter.mp hy).2
  simp at hdx hdy
  obtain ⟨dx, ux⟩ := x
  obtain ⟨dy, uy⟩ := y
  simp_all

theorem urksOf_ne_nil (rows : List VRow) (d : Int)
    (h : d ∈ rows.map VRow.date) : urksOf rows d ≠ [] := by
  obtain ⟨r, hr, hrd⟩ := List.mem_map.mp h
  unfold urksOf
  intro hc
  have hmem : r ∈ rows.filter (fun x => x.date = d) :=
    List.mem_filter.mpr ⟨hr, by simp [hrd]⟩
  have : r.urk ∈ (rows.filter (fun x => x.date = d)).map VRow.urk :=
    List.mem_map_of_mem _ hmem
  rw [hc] at this
  simp at this

theorem urksOf_filter (rows : List VRow) (kept : List Int) (d : Int)
    (hd : d ∈ kept) :
    urksOf (rows.filter (fun r => r.date ∈ kept)) d = urksOf rows d := by
  unfold urksOf
  congr 1
  rw [List.filter_filter]
  refine List.filter_congr ?_
  intro r _
  by_cases hrd : r.date = d
  · simp [hrd, hd]
  · simp [hrd]

theorem pairKeepAux_sublist (f : Int → List String) :
    ∀ (l : List Int) (a : Int), List.Sublist (pairKeepAux f (a :: l)) l := by
  intro l
  induction l with
  | nil => intro a; simp [pairKeepAux]
  | cons b rest ih =>
    intro a
    show List.Sublist
      ((if sortStr (f a) = sortStr (f b) then [] else [b]) ++
        pairKeepAux f (b :: rest)) (b :: rest)
    by_cases h : sortStr (f a) = sortStr (f b)
    · rw [if_pos h, List.nil_append]
      exact (ih b).cons b
    · rw [if_neg h, List.singleton_append]
      exact (ih b).cons₂ b

theorem pairKeepAux_congr {f g : Int → List String} :
    ∀ (l : List Int), (∀ d ∈ l, f d = g d) →
    pairKeepAux f l = pairKeepAux g l := by
  intro l
  induction l with
  | nil => intro _; rfl
  | cons a rest ih =>
    intro h
    cases rest with
    | nil => rfl
    | cons b rest' =>
      show (if sortStr (f a) = sortStr (f b) then [] else [b]) ++
          pairKeepAux f (b :: rest') = _
      rw [h a (by simp), h b (by simp),
        ih (fun d hd => h d (by simp [List.mem_cons.mp hd]))]
      rfl

theorem pairKeepAux_chain (f : Int → List String) :
    ∀ (l : List Int) (a : Int),
    List.Chain' (fun x y => sortStr (f x) ≠ sortStr (f y))
      (a :: pairKeepAux f (a :: l)) := by
  intro l
  induction l with
  | nil => intro a; simp [pairKeepAux]
  | cons b rest ih =>
    intro a
    show List.Chain' _
      (a :: ((if sortStr (f a) = sortStr (f b) then [] else [b]) ++
        pairKeepAux f (b :: rest)))
    by_cases h : sortStr (f a) = sortStr (f b)
    · rw [if_pos h, List.nil_append]
      have hb := ih b
      rw [List.chain'_cons'] at hb ⊢
      refine ⟨?_, hb.2⟩
      intro c hc
      rw [h]
      exact hb.1 c hc
    · rw [if_neg h, List.singleton_append, List.chain'_cons]
      exact ⟨h, ih b⟩

theorem pairKeepAux_of_chain (f : Int → List String) :
    ∀ (l : List Int) (a : Int),
    List.Chain' (fun x y => sortStr (f x) ≠ sortStr (f y)) (a :: l) →
    pairKeepAux f (a :: l) = l := by
  intro l
  induction l with
  | nil => intro a _; rfl
  | cons b rest ih =>
    intro a hch
    rw [List.chain'_cons] at hch
    show (if sortStr (f a) = sortStr (f b) then [] else [b]) ++
        pairKeepAux f (b :: rest) = b :: rest
    rw [if_neg hch.1, ih b hch.2, List.singleton_append]

theorem keptDates_eq (rows : List VRow) (d0 : Int) (rest : List Int)
    (h : sortedDedup (rows.map VRow.date) = d0 :: rest)
    (h0 : urksOf rows d0 ≠ []) :
    keptDates rows = some (d0 :: pairKeepAux (urksOf rows) (d0 :: rest)) := by
  unfold keptDates
  simp only [h]
  rw [if_neg h0]
  rfl

theorem setEqB_iff (a b : List String) :
    setEqB a b = true ↔ ∀ x, x ∈ a ↔ x ∈ b := by
  unfold setEqB
  rw [Bool.and_eq_true, List.all_eq_true, List.all_eq_true]
  constructor
  · rintro ⟨h1, h2⟩ x
    exact ⟨fun hx => by simpa using h1 x hx, fun hx => by simpa using h2 x hx⟩
  · intro h
    exact ⟨fun x hx => by simpa using (h x).mp hx,
      fun x hx => by simpa using (h x).mpr hx⟩

theorem specWalk_cons (f : Int → List String) (cur : List String) (d : Int)
    (rest : List Int) :
    specWalk f cur (d :: rest) =
      if f d = [] then specWalk f cur rest
      else if setEqB (f d) cur = true then specWalk f cur rest
      else d :: specWalk f (f d) rest := rfl

theorem specWalk_eq_pairKeep (f : Int → List String)
    (hnodup : ∀ d : Int, (f d).Nodup) :
    ∀ (l : List Int) (a : Int) (cur : List String),
    (∀ d ∈ l, f d ≠ []) → (∀ x, x ∈ cur ↔ x ∈ f a) →
    specWalk f cur l = pairKeepAux f (a :: l) := by
  intro l
  induction l with
  | nil => intros; rfl
  | cons b rest ih =>
    intro a cur hne hca
    have hfb : f b ≠ [] := hne b (by simp)
    have key : (sortStr (f a) = sortStr (f b)) ↔ (setEqB (f b) cur = true) := by
      rw [sortStr_eq_iff (f a) (f b) (hnodup a) (hnodup b), setEqB_iff]
      constructor
      · intro h x
        exact ((h x).symm).trans (hca x).symm
      · intro h x
        exact ((h x).trans (hca x)).symm
    rw [specWalk_cons, if_neg hfb]
    show _ = (if sortStr (f a) = sortStr (f b) then [] else [b]) ++
      pairKeepAux f (b :: rest)
    by_cases hset : setEqB (f b) cur = true
    · rw [if_pos hset, if_pos (key.mpr hset), List.nil_append]
      refine ih b cur (fun d hd => hne d (by simp [hd])) ?_
      intro x
      exact ((setEqB_iff _ _).mp hset x).symm
    · rw [if_neg hset, if_neg (fun hc => hset (key.mp hc)),
        List.singleton_append]
      congr 1
      exact ih b (f b) (fun d hd => hne d (by simp [hd])) (fun x => Iff.rfl)

/-- Claim C3: the reducer retains exactly the sorted candidate dates that
are either the first date with a non-empty active-key set or whose
active-key set differs from the most recently kept date's set, discarding
dates with empty sets — provided no (date, key) row is duplicated, which is
what the candidate-tuple construction guarantees. -/
theorem dedup_keeps_dates_per_spec (rows : List VRow) (hne : rows ≠ [])
    (hnd : rows.Nodup) :
    keptDates rows =
      some (specKeep (urksOf rows) (sortedDedup (rows.map VRow.date))) := by
  cases hsd : sortedDedup (rows.map VRow.date) with
  | nil =>
    exfalso
    obtain ⟨r, t, rfl⟩ := List.exists_cons_of_ne_nil hne
    have hm : r.date ∈ sortedDedup ((r :: t).map VRow.date) :=
      (mem_sortedDedup _ _).mpr (by simp)
    rw [hsd] at hm
    simp at hm
  | cons d0 rest =>
    have hall : ∀ d ∈ d0 :: rest, urksOf rows d ≠ [] := by
      intro d hd
      refine urksOf_ne_nil rows d ?_
      have : d ∈ sortedDedup (rows.map VRow.date) := by rw [hsd]; exact hd
      exact (mem_sortedDedup _ _).mp this
    have h0 : urksOf rows d0 ≠ [] := hall d0 (by simp)
    rw [keptDates_eq rows d0 rest hsd h0]
    unfold specKeep
    have hie : (urksOf rows d0).isEmpty = false := by
      cases hu : urksOf rows d0 with
      | nil => exact absurd hu h0
      | cons a l => rfl
    have hdw : (d0 :: rest).dropWhile (fun d => (urksOf rows d).isEmpty) =
        d0 :: rest := by
      rw [List.dropWhile_cons, hie]
      simp
    rw [hdw]
    show some (d0 :: pairKeepAux (urksOf rows) (d0 :: rest)) =
      some (d0 :: specWalk (urksOf rows) (urksOf rows d0) rest)
    refine congrArg some (congrArg (List.cons d0) ?_)
    exact (specWalk_eq_pairKeep (urksOf rows) (urksOf_nodup rows hnd) rest d0
      (urksOf rows d0) (fun d hd => hall d (by simp [hd]))
      (fun x => Iff.rfl)).symm

/-- Claim C3 witness: Scenario C — dates `1 < 2 < 3` with key sets `[A,B]`,
`[A,B]`, `[A,C]` retain exactly dates `1` and `3`. -/
theorem dedup_keeps_dates_per_spec_witness :
    rows3 ≠ [] ∧ rows3.Nodup ∧
    keptDates rows3 =
      some (specKeep (urksOf rows3) (sortedDedup (rows3.map VRow.date))) ∧
    keptDates rows3 = some [1, 3] :=
  ⟨by decide, by decide,
   dedup_keeps_dates_per_spec rows3 (by decide) (by decide), by decide⟩

/-! ## Claim C7: idempotence of the reducer -/

/-- Claim C7: re-running the reducer's deduplication on its own deduplicated
output (the retained rows, carrying the same dates and row keys) yields the
same set of retained dates. -/
theorem reducer_is_idempotent (rows : List VRow) (kept : List Int)
    (deduped : List VRow)
    (hk : keptDates rows = some kept)
    (hd : removeDuplicateVersionRows rows = some deduped) :
    keptDates deduped = some kept := by
  have hded : deduped = rows.filter (fun r => r.date ∈ kept) := by
    unfold removeDuplicateVersionRows at hd
    rw [hk] at hd
    exact (Option.some.inj hd).symm
  subst hded
  cases hsd : sortedDedup (rows.map VRow.date) with
  | nil =>
    unfold keptDates at hk
    rw [hsd] at hk
    exact absurd hk (by simp)
  | cons d0 rest =>
    have hd0mem : d0 ∈ rows.map VRow.date := by
      have : d0 ∈ sortedDedup (rows.map VRow.date) := by rw [hsd]; simp
      exact (mem_sortedDedup _ _).mp this
    have h0 : urksOf rows d0 ≠ [] := urksOf_ne_nil rows d0 hd0mem
    have hkeq : kept = d0 :: pairKeepAux (urksOf rows) (d0 :: rest) := by
      rw [keptDates_eq rows d0 rest hsd h0] at hk
      exact (Option.some.inj hk).symm
    have hsubl : List.Sublist kept (d0 :: rest) := by
      rw [hkeq]
      exact (pairKeepAux_sublist (urksOf rows) rest d0).cons₂ d0
    have hpw : kept.Pairwise (· < ·) := by
      have hp := sortedDedup_pairwise (rows.map VRow.date)
      rw [hsd] at hp
      exact hp.sublist hsubl
    have hmemiff : ∀ x, x ∈ kept ↔
        x ∈ (rows.filter (fun r => r.date ∈ kept)).map VRow.date := by
      intro x
      constructor
      · intro hx
        have hxall : x ∈ d0 :: rest := hsubl.subset hx
        have hxd : x ∈ rows.map VRow.date := by
          have : x ∈ sortedDedup (rows.map VRow.date) := by
            rw [hsd]; exact hxall
          exact (mem_sortedDedup _ _).mp this
        obtain ⟨r, hr, hrx⟩ := List.mem_map.mp hxd
        exact List.mem_map.mpr
          ⟨r, List.mem_filter.mpr ⟨hr, by simp [hrx, hx]⟩, hrx⟩
      · intro hx
        obtain ⟨r, hr, hrx⟩ := List.mem_map.mp hx
        have h2 := (List.mem_filter.mp hr).2
        simp at h2
        rw [← hrx]
        exact h2
    have hcanon : sortedDedup
        ((rows.filter (fun r => r.date ∈ kept)).map VRow.date) = kept :=
      sortedDedup_canonical _ kept hpw hmemiff
    have h0' : urksOf (rows.filter (fun r => r.date ∈ kept)) d0 ≠ [] := by
      rw [urksOf_filter rows kept d0 (by rw [hkeq]; simp)]
      exact h0
    have hktail : sortedDedup
        ((rows.filter (fun r => r.date ∈ kept)).map VRow.date) =
        d0 :: pairKeepAux (urksOf rows) (d0 :: rest) := by
      rw [hcanon, hkeq]
    rw [keptDates_eq _ d0 (pairKeepAux (urksOf rows) (d0 :: rest)) hktail h0']
    have hagree : ∀ d ∈ d0 :: pairKeepAux (urksOf rows) (d0 :: rest),
        urksOf (rows.filter (fun r => r.date ∈ kept)) d = urksOf rows d := by
      intro d hdk
      exact urksOf_filter rows kept d (by rw [hkeq]; exact hdk)
    rw [pairKeepAux_congr _ hagree]
    rw [pairKeepAux_of_chain (urksOf rows)
      (pairKeepAux (urksOf rows) (d0 :: rest)) d0
      (pairKeepAux_chain (urksOf rows) rest d0)]
    rw [← hkeq]

/-- Claim C7 witness: Scenario C deduplicates to dates `1, 3`; re-running
the reducer on the retained rows returns the same dates. -/
theorem reducer_is_idempotent_witness :
    keptDates rows3 = some [1, 3] ∧
    removeDuplicateVersionRows rows3 =
      some [⟨1, "A"⟩, ⟨1, "B"⟩, ⟨3, "A"⟩, ⟨3, "C"⟩] ∧
    keptDates [⟨1, "A"⟩, ⟨1, "B"⟩, ⟨3, "A"⟩, ⟨3, "C"⟩] = some [1, 3] :=
  ⟨by decide, by decide,
   reducer_is_idempotent rows3 [1, 3]
    [⟨1, "A"⟩, ⟨1, "B"⟩, ⟨3, "A"⟩, ⟨3, "C"⟩] (by decide) (by decide)⟩

end Lookback
